import Mathlib

/-!
Verification development for `btk20_src/dereverberation/dereverberation.cc`
(single- and multi-channel WPE dereverberation in the subband domain).

Embedding conventions:
* `gsl_complex` (a pair of C doubles) is modelled as a pair of rationals `Cq`;
  the arithmetic used by the code (add, sub, mul, conjugate, division by a
  real, addition of a real) is elementwise exact.
* The external GSL magnitude `gsl_complex_abs` (a vector/scalar norm supplied
  by the numerical library, declared an external collaborator by the spec) is
  taken as an explicit function parameter `cabs : Cq → ℚ`; theorems that need
  facts about it (nonnegativity, value on nonnegative reals) take them as
  hypotheses, which hold for the true complex modulus.
* The GSL Cholesky factor-and-solve pair is likewise an external collaborator
  and is passed as an opaque total function parameter `solve`.
* `load_factor_ = pow(10.0, loadDb/10.0)` is modelled as a rational parameter
  (it is positive for every `loadDb`).
* Streams (`VectorComplexFeatureStream` sources) are modelled as a list of
  frames plus a cursor; `next()` yields the frame under the cursor or an
  iterator error at end of stream, and `reset()` moves the cursor to 0.
* Fallible calls return `Except Err`; thrown C++ exceptions are the `Err`
  constructors.  C++ `unsigned`/`int` loop indices are modelled as `Nat`/`Int`.
-/

/-- Exceptions thrown by the dereverberation code (`jinitialization_error`,
`jindex_error`, `jiterator_error`, `jdimension_error`, `jallocation_error`,
`jnumeric_error`). -/
inductive Err where
  | initialization
  | index
  | iterator
  | dimension
  | allocation
  | numeric
deriving DecidableEq

/-- Complex number with rational components, modelling `gsl_complex`. -/
structure Cq where
  re : ℚ
  im : ℚ
deriving DecidableEq

namespace Cq

/-- `gsl_complex_rect(0.0, 0.0)`. -/
def zero : Cq := ⟨0, 0⟩

/-- `gsl_complex_add`. -/
def add (x y : Cq) : Cq := ⟨x.re + y.re, x.im + y.im⟩

/-- `gsl_complex_sub`. -/
def sub (x y : Cq) : Cq := ⟨x.re - y.re, x.im - y.im⟩

/-- `gsl_complex_mul`. -/
def mul (x y : Cq) : Cq := ⟨x.re * y.re - x.im * y.im, x.re * y.im + x.im * y.re⟩

/-- `gsl_complex_conjugate`. -/
def conj (x : Cq) : Cq := ⟨x.re, -x.im⟩

/-- `gsl_complex_div_real`. -/
def divReal (x : Cq) (d : ℚ) : Cq := ⟨x.re / d, x.im / d⟩

/-- `gsl_complex_add_real`. -/
def addReal (x : Cq) (d : ℚ) : Cq := ⟨x.re + d, x.im⟩

end Cq

/-- One subband frame: a vector of complex values, one per subband
(`gsl_vector_complex` of length `size()`). -/
abbrev Frame := List Cq

/-- `gsl_blas_zdotc(x, y)`: the conjugate-linear dot product
`sum_i conj(x_i) * y_i` (external BLAS collaborator). -/
def zdotc : List Cq → List Cq → Cq
  | x :: xs, y :: ys => (x.conj.mul y).add (zdotc xs ys)
  | _, _ => Cq.zero

/-- `SingleChannelWPEDereverberationFeature::get_lags_(subbandX, sampleX)`:
the `predictionN_` most recent samples of subband `subbandX` ending at buffer
position `sampleX`, most recent first; positions before the start of the
buffer read as exact zero.  In the C++ the position is an `unsigned` and
`int index = sampleX - lagX` relies on wrap-around for out-of-range values;
we model the position directly as an `Int`. -/
def getLags (yn : List Frame) (predictionN subbandX : Nat) (sampleX : Int) : List Cq :=
  (List.range predictionN).map fun lagX =>
    let index : Int := sampleX - (lagX : Int)
    if index < 0 then Cq.zero else (yn.getD index.toNat []).getD subbandX Cq.zero

/-- `set_band_width_(bandWidth, sampleRate)` (identical in the single- and
multi-channel classes): `0` selects the Nyquist subband `size/2`; a bandwidth
above Nyquist is a dimension error; otherwise the proportional subband index
(the C cast `unsigned(double)` truncates, which is the floor for the
nonnegative values that reach it). -/
def set_band_width (size : Nat) (bandWidth sampleRate : ℚ) : Except Err Nat :=
  if bandWidth = 0 then .ok (size / 2)
  else if bandWidth > sampleRate / 2 then .error .dimension
  else .ok ((⌊(bandWidth / (sampleRate / 2)) * ((size / 2 : Nat) : ℚ)⌋).toNat)

/-- State of a `SingleChannelWPEDereverberationFeature`.

The fields up to `gn` are the members initialized by the constructor at
dereverberation.cc:26-38; `yn` is the observation buffer `yn_`, `thetan` the
power matrix `thetan_`.  `frame_no`, `vector` and `is_end` come from the
`VectorComplexFeatureStream` base class, which is declared in a header that
is not part of this repository slice; they are modelled from the spec (see
`initial_frame_no`).  The upstream source `samples_` is modelled as the full
frame list `src` plus the pull cursor `srcPos`. -/
structure SCW where
  size : Nat
  lowerN : Nat
  upperN : Nat
  iterationsN : Nat
  load_factor : ℚ
  lower_bandWidthN : Nat
  upper_bandWidthN : Nat
  estimated : Bool
  framesN : Nat
  thetan : Nat → Nat → ℚ
  gn : Nat → List Cq
  yn : List Frame
  frame_no : Int
  vector : List Cq
  is_end : Bool
  src : List Frame
  srcPos : Nat

/-- `predictionN_ = upperN_ - lowerN_ + 1`. -/
def SCW.predictionN (st : SCW) : Nat := st.upperN - st.lowerN + 1

/-- Modelled from the spec: the `VectorComplexFeatureStream` base class (its
header is not under src/) keeps the index of the last delivered frame; it
starts at -1 (mirroring `initial_frame_no_(-1)` at dereverberation.cc:319,
where `MultiChannelWPEDereverberation` replicates the same protocol), and
`increment_()` advances it by one. -/
def initial_frame_no : Int := -1

/-- `SingleChannelWPEDereverberationFeature` constructor
(dereverberation.cc:26-38).  `load_factor` stands for `pow(10, loadDb/10)`.
The prediction vectors `gn_` are allocated with `gsl_vector_complex_calloc`,
i.e. all-zero.  The base-class output buffer `vector_` is modelled as zeros
(its initial contents are never read before being written). -/
def scConstruct (src : List Frame) (size lowerN upperN iterationsN : Nat)
    (load_factor bandWidth sampleRate : ℚ) : Except Err SCW :=
  (set_band_width size bandWidth sampleRate).map fun lbw =>
    { size := size
      lowerN := lowerN
      upperN := upperN
      iterationsN := iterationsN
      load_factor := load_factor
      lower_bandWidthN := lbw
      upper_bandWidthN := size - lbw
      estimated := false
      framesN := 0
      thetan := fun _ _ => 0
      gn := fun _ => List.replicate (upperN - lowerN + 1) Cq.zero
      yn := []
      frame_no := initial_frame_no
      vector := List.replicate size Cq.zero
      is_end := false
      src := src
      srcPos := 0 }

/-- One write of the streaming output loop body (dereverberation.cc:269-271):
store the (possibly filtered) value at subband `s` and, for
`0 < s < size/2`, its conjugate at the mirror subband `size - s`. -/
def subbandStep (size : Nat) (curAt : Nat → Cq) (v : List Cq) (s : Nat) : List Cq :=
  let c := curAt s
  let v1 := v.set s c
  if 0 < s ∧ s < size / 2 then v1.set (size - s) c.conj else v1

/-- The streaming output loop over subbands `0 .. size/2`
(dereverberation.cc:260-272 and 486-497): `curAt s` is the value the loop
computes for subband `s`. -/
def subbandLoop (size : Nat) (curAt : Nat → Cq) (v : List Cq) : List Cq :=
  (List.range (size / 2 + 1)).foldl (subbandStep size curAt) v

/-- The value the single-channel streaming loop computes for subband `s`
(dereverberation.cc:261-268): the raw value, minus the predicted
reverberation when the frame counter has passed `lowerN_` and the subband is
in the active set.  `fno` is the post-increment frame counter and `yn'` the
buffer after the current frame was pushed. -/
def scCurAt (st : SCW) (fno : Int) (current : Frame) (yn' : List Frame) (s : Nat) : Cq :=
  let cur := current.getD s Cq.zero
  if (st.lowerN : Int) ≤ fno ∧ (s ≤ st.lower_bandWidthN ∨ st.upper_bandWidthN ≤ s) then
    cur.sub (zdotc (st.gn s) (getLags yn' st.predictionN s ((yn'.length : Int) - 1 - (st.lowerN : Int))))
  else cur

/-- Push of the current frame into the sliding lag buffer
(dereverberation.cc:250-258): evict the oldest frame once the buffer holds
`predictionN_` frames. -/
def scYnPush (st : SCW) (current : Frame) : List Frame :=
  if st.predictionN ≤ st.yn.length then st.yn.drop 1 ++ [current] else st.yn ++ [current]

/-- The output frame written into `vector_` by a successful
`SingleChannelWPEDereverberationFeature::next` pull of `current`. -/
def scOutput (st : SCW) (current : Frame) : List Cq :=
  subbandLoop st.size (scCurAt st (st.frame_no + 1) current (scYnPush st current)) st.vector

/-- State after a successful pull in
`SingleChannelWPEDereverberationFeature::next`. -/
def scAdvance (st : SCW) (current : Frame) : SCW :=
  { st with
    frame_no := st.frame_no + 1
    yn := scYnPush st current
    vector := scOutput st current
    srcPos := st.srcPos + 1 }

/-- `SingleChannelWPEDereverberationFeature::next(frame_no)`
(dereverberation.cc:227-275).  Guard order follows the source: the
initialization check, the cached-frame early return, the sequencing check,
then the pull (an exhausted source is an iterator error; the state mutated
before a C++ throw is discarded along with the exception here). -/
def scNext (st : SCW) (frame_no : Int) : Except Err (List Cq × SCW) :=
  if st.estimated = false then .error .initialization
  else if frame_no = st.frame_no then .ok (st.vector, st)
  else if 0 ≤ frame_no ∧ frame_no - 1 ≠ st.frame_no then .error .index
  else
    match st.src.get? st.srcPos with
    | none => .error .iterator
    | some blk => .ok (scOutput st blk, scAdvance st blk)

/-- State of a `MultiChannelWPEDereverberation` (dereverberation.cc:312-334).
`frames` is the frame-brace buffer `frames_` (one frame per channel per time
step); `output` the per-channel output buffers `output_`; each source is a
frame list plus its pull cursor.  `Gn_` and `output_` are allocated with
`gsl_vector_complex_alloc`, whose initial contents are unspecified; they are
modelled as zeros and no theorem depends on their pre-write contents.
The scratch members `R_` and `r_` are rebuilt from scratch on every use and
are modelled as the return values of `mcCalcR` / `mcCalcr` below. -/
structure MCW where
  subbandsN : Nat
  channelsN : Nat
  lowerN : Nat
  upperN : Nat
  iterationsN : Nat
  load_factor : ℚ
  lower_bandWidthN : Nat
  upper_bandWidthN : Nat
  estimated : Bool
  framesN : Nat
  thetan : Nat → Nat → Nat → ℚ
  Gn : Nat → Nat → List Cq
  frames : List (List Frame)
  output : Nat → Frame
  frame_no : Int
  diagonal_bias : ℚ
  sources : List (List Frame × Nat)

/-- `size()` of `MultiChannelWPEDereverberation` is the subband count. -/
def MCW.size (st : MCW) : Nat := st.subbandsN

/-- `predictionN_ = upperN_ - lowerN_ + 1`. -/
def MCW.predictionN (st : MCW) : Nat := st.upperN - st.lowerN + 1

/-- `totalPredictionN_ = predictionN_ * channelsN_`. -/
def MCW.totalPredictionN (st : MCW) : Nat := st.predictionN * st.channelsN

/-- `MultiChannelWPEDereverberation` constructor (dereverberation.cc:312-334).
`load_factor` stands for `pow(10, loadDb/10)`. -/
def mcConstruct (subbandsN channelsN lowerN upperN iterationsN : Nat)
    (load_factor bandWidth diagonal_bias sampleRate : ℚ) : Except Err MCW :=
  (set_band_width subbandsN bandWidth sampleRate).map fun lbw =>
    { subbandsN := subbandsN
      channelsN := channelsN
      lowerN := lowerN
      upperN := upperN
      iterationsN := iterationsN
      load_factor := load_factor
      lower_bandWidthN := lbw
      upper_bandWidthN := subbandsN - lbw
      estimated := false
      framesN := 0
      thetan := fun _ _ _ => 0
      Gn := fun _ _ => List.replicate ((upperN - lowerN + 1) * channelsN) Cq.zero
      frames := []
      output := fun _ => List.replicate subbandsN Cq.zero
      frame_no := initial_frame_no
      diagonal_bias := diagonal_bias
      sources := [] }

/-- `MultiChannelWPEDereverberation::set_input` (dereverberation.cc:401-407):
registering more sources than `channelsN_` is an allocation error. -/
def mcSetInput (st : MCW) (samples : List Frame) : Except Err MCW :=
  if st.sources.length = st.channelsN then .error .allocation
  else .ok { st with sources := st.sources ++ [(samples, 0)] }

/-- `MultiChannelWPEDereverberation::get_lags_(subbandX, sampleX)`
(dereverberation.cc:540-555): the channel-major concatenation of every
channel's lag sub-vector; positions before the start of the buffer read as
exact zero (the `unsigned`/`int` wrap is modelled as a signed position as in
`getLags`). -/
def mcGetLags (frames : List (List Frame)) (channelsN predictionN subbandX : Nat)
    (sampleX : Int) : List Cq :=
  (List.range channelsN).flatMap fun channelX =>
    (List.range predictionN).map fun lagX =>
      let index : Int := sampleX - (lagX : Int)
      if index < 0 then Cq.zero
      else ((frames.getD index.toNat []).getD channelX []).getD subbandX Cq.zero

/-- One pull of `sources_[channelX]->next(frame_no)` for every channel in
order (dereverberation.cc:457-468); exhaustion of any channel is an iterator
error. -/
def pullAllAux : List (List Frame × Nat) → Option (List Frame × List (List Frame × Nat))
  | [] => some ([], [])
  | (fr, pos) :: rest =>
    match fr.get? pos with
    | none => none
    | some blk =>
      match pullAllAux rest with
      | none => none
      | some (blks, rest') => some (blk :: blks, (fr, pos + 1) :: rest')

/-- Push of a frame brace into the sliding buffer
(dereverberation.cc:470-481). -/
def mcFramesPush (st : MCW) (fbrace : List Frame) : List (List Frame) :=
  if st.predictionN ≤ st.frames.length then st.frames.drop 1 ++ [fbrace]
  else st.frames ++ [fbrace]

/-- The value the multi-channel streaming loop computes for channel `ch`,
subband `s` (dereverberation.cc:487-493). -/
def mcCurAt (st : MCW) (fno : Int) (frames' : List (List Frame)) (fbrace : List Frame)
    (ch s : Nat) : Cq :=
  let cur := (fbrace.getD ch []).getD s Cq.zero
  if (st.lowerN : Int) ≤ fno ∧ (s ≤ st.lower_bandWidthN ∨ st.upper_bandWidthN ≤ s) then
    cur.sub (zdotc (st.Gn ch s)
      (mcGetLags frames' st.channelsN st.predictionN s ((frames'.length : Int) - 1 - (st.lowerN : Int))))
  else cur

/-- The per-channel output buffers after the joint output loop
(dereverberation.cc:484-498): channel `ch`'s buffer is rewritten by the
subband loop; the others keep their previous contents. -/
def mcOutputs (st : MCW) (fbrace : List Frame) : Nat → Frame :=
  let frames' := mcFramesPush st fbrace
  (List.range st.channelsN).foldl
    (fun out ch =>
      Function.update out ch
        (subbandLoop st.subbandsN (mcCurAt st (st.frame_no + 1) frames' fbrace ch) (out ch)))
    st.output

/-- State after a successful `calc_every_channel_output`. -/
def mcAdvance (st : MCW) (fbrace : List Frame) (sources' : List (List Frame × Nat)) : MCW :=
  { st with
    frame_no := st.frame_no + 1
    frames := mcFramesPush st fbrace
    output := mcOutputs st fbrace
    sources := sources' }

/-- `MultiChannelWPEDereverberation::calc_every_channel_output(frame_no)`
(dereverberation.cc:444-501).  Guard order follows the source: the
initialization check, the sequencing check (there is no cached-frame early
return here), then one pull per channel. -/
def mcCalcEveryChannelOutput (st : MCW) (frame_no : Int) :
    Except Err ((Nat → Frame) × MCW) :=
  if st.estimated = false then .error .initialization
  else if 0 ≤ frame_no ∧ frame_no - 1 ≠ st.frame_no then .error .index
  else
    match pullAllAux st.sources with
    | none => .error .iterator
    | some (fbrace, sources') => .ok (mcOutputs st fbrace, mcAdvance st fbrace sources')

/-- `MultiChannelWPEDereverberation::get_output(channelX)`
(dereverberation.cc:433-439). -/
def mcGetOutput (st : MCW) (channelX : Nat) : Except Err Frame :=
  if st.channelsN ≤ channelX then .error .index else .ok (st.output channelX)

/-- State of a `MultiChannelWPEDereverberationFeature` channel view
(dereverberation.cc:703-707).  `frame_no` is the view's own base-class frame
counter (modelled from the spec like `initial_frame_no`). -/
structure MCFeat where
  mc : MCW
  channelX : Nat
  primaryChannelX : Nat
  frame_no : Int

/-- `MultiChannelWPEDereverberationFeature::next(frame_no)`
(dereverberation.cc:714-728): only the primary channel's view runs the joint
computation; every view then checks its own frame sequencing, increments its
counter and returns the shared per-channel output buffer. -/
def mcFeatureNext (stf : MCFeat) (frame_no : Int) : Except Err (Frame × MCFeat) := do
  let mc' ←
    if stf.channelX = stf.primaryChannelX then
      (mcCalcEveryChannelOutput stf.mc frame_no).map (fun p => p.2)
    else pure stf.mc
  if 0 ≤ frame_no ∧ frame_no - 1 ≠ stf.frame_no then .error .index
  else
    (mcGetOutput mc' stf.channelX).map fun out =>
      (out, { stf with mc := mc', frame_no := stf.frame_no + 1 })

/-- `subband_floor_ = 1.0E-03` (dereverberation.cc:144 and 617). -/
def subband_floor : ℚ := 1 / 1000

/-- The floored squared power stored for one residual
(dereverberation.cc:160-166): `thetan = |residual|`, floored at
`subband_floor_`, then squared. -/
def thetaEntry (cabs : Cq → ℚ) (residual : Cq) : ℚ :=
  let thetan := cabs residual
  let thetan := if thetan < subband_floor then subband_floor else thetan
  thetan * thetan

/-- The residual whose power `calc_Thetan_` stores at `(sampleX, subbandX)`
(dereverberation.cc:150-158): the observed value, minus the current
predictor's output once `sampleX ≥ lowerN_`. -/
def scThetaResidual (st : SCW) (sampleX subbandX : Nat) : Cq :=
  let current := (st.yn.getD sampleX []).getD subbandX Cq.zero
  if st.lowerN ≤ sampleX then
    current.sub (zdotc (st.gn subbandX)
      (getLags st.yn st.predictionN subbandX ((sampleX : Int) - (st.lowerN : Int))))
  else current

/-- `SingleChannelWPEDereverberationFeature::calc_Thetan_()`
(dereverberation.cc:146-170): for every buffered frame and every subband,
overwrite the power matrix entry with the floored squared residual power. -/
def scCalcThetan (cabs : Cq → ℚ) (st : SCW) : Nat → Nat → ℚ :=
  (List.range st.yn.length).foldl
    (fun th sampleX =>
      (List.range st.size).foldl
        (fun th subbandX =>
          fun a b =>
            if a = sampleX ∧ b = subbandX then
              thetaEntry cabs (scThetaResidual st sampleX subbandX)
            else th a b)
        th)
    st.thetan

/-- The residual used by the multi-channel `calc_Thetan_`
(dereverberation.cc:627-634). -/
def mcThetaResidual (st : MCW) (ch sampleX subbandX : Nat) : Cq :=
  let current := ((st.frames.getD sampleX []).getD ch []).getD subbandX Cq.zero
  if st.lowerN ≤ sampleX then
    current.sub (zdotc (st.Gn ch subbandX)
      (mcGetLags st.frames st.channelsN st.predictionN subbandX
        ((sampleX : Int) - (st.lowerN : Int))))
  else current

/-- `MultiChannelWPEDereverberation::calc_Thetan_()`
(dereverberation.cc:619-646): for every buffered frame brace, channel and
subband, overwrite the per-channel power matrix entry with the floored
squared residual power. -/
def mcCalcThetan (cabs : Cq → ℚ) (st : MCW) : Nat → Nat → Nat → ℚ :=
  (List.range st.frames.length).foldl
    (fun th sampleX =>
      (List.range st.channelsN).foldl
        (fun th ch =>
          (List.range st.subbandsN).foldl
            (fun th subbandX =>
              fun c a b =>
                if c = ch ∧ a = sampleX ∧ b = subbandX then
                  thetaEntry cabs (mcThetaResidual st ch sampleX subbandX)
                else th c a b)
            th)
        th)
    st.thetan

/-- Point update of a matrix represented as a function
(`gsl_matrix_complex_set`). -/
def update2 (R : Nat → Nat → Cq) (i j : Nat) (v : Cq) : Nat → Nat → Cq :=
  fun a b => if a = i ∧ b = j then v else R a b

/-- The maximum magnitude over the first `n` diagonal entries, starting from
`0.0` (dereverberation.cc:174-178 and 652-656). -/
def maximumDiagonal (cabs : Cq → ℚ) (n : Nat) (R : Nat → Nat → Cq) : ℚ :=
  (List.range n).foldl
    (fun m i => let diag := cabs (R i i); if diag > m then diag else m) 0

/-- `load_R_()` (dereverberation.cc:172-184, and per channel at 648-663):
proportional diagonal loading.  The maximum diagonal magnitude is computed
first; then every diagonal entry is replaced by its own magnitude plus
`maximumDiagonal * load_factor_`, as a real value. -/
def load_R (cabs : Cq → ℚ) (load_factor : ℚ) (n : Nat) (R : Nat → Nat → Cq) :
    Nat → Nat → Cq :=
  let maxD := maximumDiagonal cabs n R
  (List.range n).foldl
    (fun R i => update2 R i i ⟨cabs (R i i) + maxD * load_factor, 0⟩) R

/-- The weighted correlation accumulation of the single-channel `calc_Rr_`
(dereverberation.cc:98-114): starting from a zeroed matrix, for every valid
sample accumulate the weighted outer product of the lag vector with itself
into the lower triangle. -/
def scCalcR (st : SCW) (subbandX : Nat) : Nat → Nat → Cq :=
  (List.range' st.lowerN (st.framesN - st.lowerN)).foldl
    (fun R sampleX =>
      let thetan := st.thetan sampleX subbandX
      let lags := getLags st.yn st.predictionN subbandX ((sampleX : Int) - (st.lowerN : Int))
      (List.range st.predictionN).foldl
        (fun R rowX =>
          let rowS := lags.getD rowX Cq.zero
          (List.range (rowX + 1)).foldl
            (fun R colX =>
              let colS := lags.getD colX Cq.zero
              update2 R rowX colX ((R rowX colX).add ((rowS.mul colS.conj).divReal thetan)))
            R)
        R)
    (fun _ _ => Cq.zero)

/-- The cross-correlation accumulation of the single-channel `calc_Rr_`
(dereverberation.cc:116-137), without the printing-only `optimization`
diagnostic. -/
def scCalcr (st : SCW) (subbandX : Nat) : List Cq :=
  (List.range' st.lowerN (st.framesN - st.lowerN)).foldl
    (fun r sampleX =>
      let thetan := st.thetan sampleX subbandX
      let current := (st.yn.getD sampleX []).getD subbandX Cq.zero
      let lags := getLags st.yn st.predictionN subbandX ((sampleX : Int) - (st.lowerN : Int))
      (List.range st.predictionN).foldl
        (fun r lagX =>
          r.set lagX ((r.getD lagX Cq.zero).add
            ((current.conj.mul (lags.getD lagX Cq.zero)).divReal thetan)))
        r)
    (List.replicate st.predictionN Cq.zero)

/-- The weighted correlation accumulation of the multi-channel `calc_Rr_`
for one channel (dereverberation.cc:560-575), before the diagonal bias is
applied. -/
def mcAccumR (st : MCW) (subbandX ch : Nat) : Nat → Nat → Cq :=
  (List.range' st.lowerN (st.framesN - st.lowerN)).foldl
    (fun R sampleX =>
      let thetan := st.thetan ch sampleX subbandX
      let lags := mcGetLags st.frames st.channelsN st.predictionN subbandX
        ((sampleX : Int) - (st.lowerN : Int))
      (List.range st.totalPredictionN).foldl
        (fun R rowX =>
          let rowS := lags.getD rowX Cq.zero
          (List.range (rowX + 1)).foldl
            (fun R colX =>
              let colS := lags.getD colX Cq.zero
              update2 R rowX colX ((R rowX colX).add ((rowS.mul colS.conj).divReal thetan)))
            R)
        R)
    (fun _ _ => Cq.zero)

/-- The fixed diagonal bias loop of the multi-channel `calc_Rr_`
(dereverberation.cc:576-579): add `diagonal_bias_` to every diagonal entry. -/
def addDiagonalBias (n : Nat) (bias : ℚ) (R : Nat → Nat → Cq) : Nat → Nat → Cq :=
  (List.range n).foldl (fun R rowX => update2 R rowX rowX ((R rowX rowX).addReal bias)) R

/-- Channel `ch`'s matrix `R_[ch]` as produced by
`MultiChannelWPEDereverberation::calc_Rr_(subbandX)`
(dereverberation.cc:557-580): the weighted accumulation followed by the
fixed diagonal bias. -/
def mcCalcR (st : MCW) (subbandX ch : Nat) : Nat → Nat → Cq :=
  addDiagonalBias st.totalPredictionN st.diagonal_bias (mcAccumR st subbandX ch)

/-- The cross-correlation accumulation of the multi-channel `calc_Rr_` for
one channel (dereverberation.cc:583-614), without the printing-only
diagnostic. -/
def mcCalcr (st : MCW) (subbandX ch : Nat) : List Cq :=
  (List.range' st.lowerN (st.framesN - st.lowerN)).foldl
    (fun r sampleX =>
      let thetan := st.thetan ch sampleX subbandX
      let current := ((st.frames.getD sampleX []).getD ch []).getD subbandX Cq.zero
      let lags := mcGetLags st.frames st.channelsN st.predictionN subbandX
        ((sampleX : Int) - (st.lowerN : Int))
      (List.range st.totalPredictionN).foldl
        (fun r lagX =>
          r.set lagX ((r.getD lagX Cq.zero).add
            ((current.conj.mul (lags.getD lagX Cq.zero)).divReal thetan)))
        r)
    (List.replicate st.totalPredictionN Cq.zero)

/-- `SingleChannelWPEDereverberationFeature::estimate_Gn_()`
(dereverberation.cc:186-205): for each iteration recompute the power matrix,
then for each subband in the active set rebuild and regularize the
correlation statistics and solve for the predictor.  `solve` stands for the
external GSL Cholesky decompose-and-solve pair. -/
def scEstimateGn (cabs : Cq → ℚ) (solve : (Nat → Nat → Cq) → List Cq → List Cq)
    (st : SCW) : SCW :=
  (List.range st.iterationsN).foldl
    (fun st _iterationX =>
      let st := { st with thetan := scCalcThetan cabs st }
      (List.range st.size).foldl
        (fun st subbandX =>
          if st.lower_bandWidthN < subbandX ∧ subbandX < st.upper_bandWidthN then st
          else
            let R := load_R cabs st.load_factor st.predictionN (scCalcR st subbandX)
            let r := scCalcr st subbandX
            { st with gn := Function.update st.gn subbandX (solve R r) })
        st)
    st

/-- `MultiChannelWPEDereverberation::estimate_Gn_()`
(dereverberation.cc:665-690): like the single-channel loop, except that the
statistics are built for every channel before the per-channel solves (a
Cholesky failure would be a numeric error; the external solver is modelled
as total, and no theorem depends on its output). -/
def mcEstimateGn (cabs : Cq → ℚ) (solve : (Nat → Nat → Cq) → List Cq → List Cq)
    (st : MCW) : MCW :=
  (List.range st.iterationsN).foldl
    (fun st _iterationX =>
      let st := { st with thetan := mcCalcThetan cabs st }
      (List.range st.subbandsN).foldl
        (fun st subbandX =>
          if st.lower_bandWidthN < subbandX ∧ subbandX < st.upper_bandWidthN then st
          else
            let R := fun ch => load_R cabs st.load_factor st.totalPredictionN (mcCalcR st subbandX ch)
            let r := fun ch => mcCalcr st subbandX ch
            (List.range st.channelsN).foldl
              (fun st ch =>
                { st with Gn := fun c s => if c = ch ∧ s = subbandX then solve (R ch) (r ch) else st.Gn c s })
              st)
        st)
    st

/-- `SingleChannelWPEDereverberationFeature::fill_buffer_` loop
(dereverberation.cc:76-90): iterate `frX = 0, 1, ...`; stop when
`end_frame_no >= 0 && frX >= end_frame_no`; pull one frame (stopping at end
of stream) whenever `frX >= start_frame_no` — iterations with
`frX < start_frame_no` pull nothing.  Returns the frames pushed and the
final source cursor. -/
def scFillLoop (frX : Nat) (startF endF : Int) (src : List Frame) (pos : Nat)
    (acc : List Frame) : List Frame × Nat :=
  if 0 ≤ endF ∧ endF ≤ (frX : Int) then (acc, pos)
  else if startF ≤ (frX : Int) then
    match h : src.get? pos with
    | none => (acc, pos)
    | some blk => scFillLoop (frX + 1) startF endF src (pos + 1) (acc ++ [blk])
  else scFillLoop (frX + 1) startF endF src pos acc
termination_by (startF.toNat - frX) + (src.length - pos)
decreasing_by
  · have : pos < src.length := List.get?_eq_some.mp h |>.1
    omega
  · have h1 : ¬ (startF ≤ (frX : Int)) := by assumption
    omega

/-- `fill_buffer_` itself (dereverberation.cc:74-94): push the pulled frames
onto `yn_`, record `framesN_ = yn_.size()` and allocate the zeroed power
matrix. -/
def scFillBuffer (st : SCW) (startF endF : Int) : SCW :=
  let res := scFillLoop 0 startF endF st.src st.srcPos []
  { st with
    yn := st.yn ++ res.1
    srcPos := res.2
    framesN := (st.yn ++ res.1).length
    thetan := fun _ _ => 0 }

/-- `SingleChannelWPEDereverberationFeature::estimate_filter`
(dereverberation.cc:214-225): fill the batch buffer, run the iterative
estimation, rewind the source, discard the batch buffer, mark the filter
estimated, and return the number of buffered frames. -/
def scEstimateFilter (cabs : Cq → ℚ) (solve : (Nat → Nat → Cq) → List Cq → List Cq)
    (st : SCW) (startF endF : Int) : SCW × Nat :=
  let st1 := scFillBuffer st startF endF
  let st2 := scEstimateGn cabs solve st1
  let st3 := { st2 with srcPos := 0, yn := [], estimated := true }
  (st3, st3.framesN)

/-- Frames still pullable from the first registered source (termination
measure for the multi-channel buffer-fill loop: every successful round of
pulls advances every source, in particular the first one). -/
def headRemaining : List (List Frame × Nat) → Nat
  | [] => 0
  | (fr, pos) :: _ => fr.length - pos

/-- `MultiChannelWPEDereverberation::fill_buffer_` loop
(dereverberation.cc:508-530): like the single-channel loop, but one pull per
channel per iteration, stopping (via `end_frame_no = 0; goto`) as soon as
any channel is exhausted.  With zero registered sources the C++ loop would
never terminate for `end_frame_no < 0`; the model returns immediately in
that (unreachable) configuration. -/
def mcFillLoop (frX : Nat) (startF endF : Int) (sources : List (List Frame × Nat))
    (acc : List (List Frame)) : List (List Frame) × List (List Frame × Nat) :=
  if sources = [] then (acc, sources)
  else if 0 ≤ endF ∧ endF ≤ (frX : Int) then (acc, sources)
  else if startF ≤ (frX : Int) then
    match h : pullAllAux sources with
    | none => (acc, sources)
    | some (fbrace, sources') => mcFillLoop (frX + 1) startF endF sources' (acc ++ [fbrace])
  else mcFillLoop (frX + 1) startF endF sources acc
termination_by (startF.toNat - frX) + headRemaining sources
decreasing_by
  · rename_i hne _ _
    have hlt : headRemaining sources' < headRemaining sources := by
      cases sources with
      | nil => exact absurd rfl hne
      | cons hd tl =>
        obtain ⟨fr, pos⟩ := hd
        simp only [pullAllAux] at h
        cases hget : fr.get? pos with
        | none => rw [hget] at h; simp at h
        | some blk =>
          rw [hget] at h
          cases hrec : pullAllAux tl with
          | none => rw [hrec] at h; simp at h
          | some p =>
            obtain ⟨blks, rest'⟩ := p
            rw [hrec] at h
            simp only [Option.some.injEq, Prod.mk.injEq] at h
            obtain ⟨-, h2⟩ := h
            subst h2
            have hpos : pos < fr.length := List.get?_eq_some.mp hget |>.1
            simp only [headRemaining]
            omega
    omega
  · rename_i h1
    omega

/-- Multi-channel `fill_buffer_` (dereverberation.cc:506-538). -/
def mcFillBuffer (st : MCW) (startF endF : Int) : MCW :=
  let res := mcFillLoop 0 startF endF st.sources []
  { st with
    frames := st.frames ++ res.1
    sources := res.2
    framesN := (st.frames ++ res.1).length
    thetan := fun _ _ _ => 0 }

/-- `MultiChannelWPEDereverberation::estimate_filter`
(dereverberation.cc:414-431): fill the batch buffer, run the iterative
estimation, rewind every source, discard the batch buffer, mark the filter
estimated, and return the number of buffered frame braces. -/
def mcEstimateFilter (cabs : Cq → ℚ) (solve : (Nat → Nat → Cq) → List Cq → List Cq)
    (st : MCW) (startF endF : Int) : MCW × Nat :=
  let st1 := mcFillBuffer st startF endF
  let st2 := mcEstimateGn cabs solve st1
  let st3 := { st2 with
    sources := st2.sources.map fun s => (s.1, 0)
    frames := []
    estimated := true }
  (st3, st3.framesN)

/-- Success test for `Except` results. -/
def exceptIsOk {ε α : Type _} : Except ε α → Bool
  | .ok _ => true
  | .error _ => false

/-- Payload of a successful `Except` result, with a default for errors. -/
def exceptGetD {ε α : Type _} (d : α) : Except ε α → α
  | .ok a => a
  | .error _ => d

/-- A concrete magnitude function standing in for the external
`gsl_complex_abs` in witness instantiations: it is nonnegative and agrees
with the true modulus on real values, which is all the theorems assume. -/
def cabsDemo (z : Cq) : ℚ := if z.im = 0 then |z.re| else max |z.re| |z.im|

/-- A concrete stand-in for the external Cholesky decompose-and-solve pair
in witness instantiations (no theorem depends on the solver's output). -/
def solveDemo : (Nat → Nat → Cq) → List Cq → List Cq := fun _ r => r

/-- A two-frame, four-subband source stream. -/
def srcA : List Frame :=
  [[⟨1, 0⟩, ⟨0, 1⟩, ⟨2, 0⟩, ⟨3, 0⟩], [⟨2, 0⟩, ⟨0, 2⟩, ⟨1, 0⟩, ⟨0, 0⟩]]

/-- A second two-frame, four-subband source stream. -/
def srcB : List Frame :=
  [[⟨1, 1⟩, ⟨2, 0⟩, ⟨0, 0⟩, ⟨1, 0⟩], [⟨0, 1⟩, ⟨1, 0⟩, ⟨3, 0⟩, ⟨0, 0⟩]]

/-- A two-frame, four-subband source stream whose first frame is not
conjugate-symmetric (subband 3 is not the conjugate of subband 1). -/
def srcC : List Frame :=
  [[⟨1, 0⟩, ⟨0, 1⟩, ⟨0, 0⟩, ⟨5, 0⟩], [⟨2, 0⟩, ⟨0, 0⟩, ⟨1, 0⟩, ⟨0, 0⟩]]

/-- A single-channel feature in the `Estimated` state that has already
delivered frame 0 (`frame_no_ = 0`, one frame in the lag buffer, source
cursor past the first frame). -/
def scDemo : SCW :=
  { size := 4
    lowerN := 1
    upperN := 2
    iterationsN := 2
    load_factor := 1
    lower_bandWidthN := 2
    upper_bandWidthN := 2
    estimated := true
    framesN := 2
    thetan := fun _ _ => 1
    gn := fun _ => List.replicate 2 Cq.zero
    yn := [[⟨1, 0⟩, ⟨0, 1⟩, ⟨2, 0⟩, ⟨0, 3⟩]]
    frame_no := 0
    vector := List.replicate 4 Cq.zero
    is_end := false
    src := srcA
    srcPos := 1 }

/-- `scDemo` before any estimation happened. -/
def scUnest : SCW := { scDemo with estimated := false }

/-- A multi-channel dereverberator in the `Estimated` state, fresh for
streaming (frame counter still at its initial value, both sources rewound). -/
def mcDemoEst : MCW :=
  { subbandsN := 4
    channelsN := 2
    lowerN := 1
    upperN := 2
    iterationsN := 2
    load_factor := 1
    lower_bandWidthN := 2
    upper_bandWidthN := 2
    estimated := true
    framesN := 2
    thetan := fun _ _ _ => 1
    Gn := fun _ _ => List.replicate 4 Cq.zero
    frames := []
    output := fun _ => List.replicate 4 Cq.zero
    frame_no := initial_frame_no
    diagonal_bias := 1 / 10
    sources := [(srcA, 0), (srcB, 0)] }

/-- The multi-channel dereverberator produced by `mcConstruct` followed by
two `mcSetInput` registrations — no estimation has happened. -/
def mcUnest : MCW :=
  { subbandsN := 4
    channelsN := 2
    lowerN := 1
    upperN := 2
    iterationsN := 2
    load_factor := 1
    lower_bandWidthN := 2
    upper_bandWidthN := 2
    estimated := false
    framesN := 0
    thetan := fun _ _ _ => 0
    Gn := fun _ _ => List.replicate 4 Cq.zero
    frames := []
    output := fun _ => List.replicate 4 Cq.zero
    frame_no := initial_frame_no
    diagonal_bias := 1 / 10
    sources := [(srcA, 0), (srcB, 0)] }

/-- A non-primary channel view (channel 1, primary 0) over `mcUnest`. -/
def mcFeatUnest : MCFeat :=
  { mc := mcUnest
    channelX := 1
    primaryChannelX := 0
    frame_no := initial_frame_no }

/-- The single-channel feature constructed by
`scConstruct srcC 4 0 0 0 1 0 16`: four subbands, prediction window
`lowerN = upperN = 0`, zero estimation iterations, full bandwidth. -/
def stC1base : SCW :=
  { size := 4
    lowerN := 0
    upperN := 0
    iterationsN := 0
    load_factor := 1
    lower_bandWidthN := 2
    upper_bandWidthN := 2
    estimated := false
    framesN := 0
    thetan := fun _ _ => 0
    gn := fun _ => List.replicate 1 Cq.zero
    yn := []
    frame_no := initial_frame_no
    vector := List.replicate 4 Cq.zero
    is_end := false
    src := srcC
    srcPos := 0 }

/-- `stC1base` after `estimate_filter(0, 1)` with zero iterations. -/
def stC1est : SCW := (scEstimateFilter cabsDemo solveDemo stC1base 0 1).1

/-- A two-frame, six-subband source stream. -/
def srcD : List Frame :=
  [[⟨1, 0⟩, ⟨0, 1⟩, ⟨2, 1⟩, ⟨3, 0⟩, ⟨1, 1⟩, ⟨0, 2⟩],
   [⟨2, 0⟩, ⟨1, 1⟩, ⟨0, 1⟩, ⟨1, 0⟩, ⟨0, 0⟩, ⟨2, 2⟩]]

/-- Another two-frame, six-subband source stream. -/
def srcE : List Frame :=
  [[⟨0, 1⟩, ⟨1, 0⟩, ⟨1, 1⟩, ⟨0, 0⟩, ⟨2, 0⟩, ⟨1, 2⟩],
   [⟨1, 0⟩, ⟨0, 2⟩, ⟨2, 0⟩, ⟨0, 1⟩, ⟨1, 1⟩, ⟨0, 0⟩]]

/-- An estimated single-channel feature with a limited bandwidth
(`lower_bandWidthN = 1 < 5 = upper_bandWidthN`), nonzero predictors, one
delivered frame. -/
def scBand : SCW :=
  { size := 6
    lowerN := 1
    upperN := 2
    iterationsN := 1
    load_factor := 1
    lower_bandWidthN := 1
    upper_bandWidthN := 5
    estimated := true
    framesN := 2
    thetan := fun _ _ => 1
    gn := fun _ => [⟨1, 0⟩, ⟨0, 1⟩]
    yn := [[⟨1, 0⟩, ⟨0, 1⟩, ⟨2, 1⟩, ⟨3, 0⟩, ⟨1, 1⟩, ⟨0, 2⟩]]
    frame_no := 0
    vector := List.replicate 6 Cq.zero
    is_end := false
    src := srcD
    srcPos := 1 }

/-- An estimated multi-channel dereverberator with a limited bandwidth,
nonzero predictors, fresh for streaming. -/
def mcBand : MCW :=
  { subbandsN := 6
    channelsN := 2
    lowerN := 0
    upperN := 1
    iterationsN := 1
    load_factor := 1
    lower_bandWidthN := 1
    upper_bandWidthN := 5
    estimated := true
    framesN := 2
    thetan := fun _ _ _ => 1
    Gn := fun _ _ => [⟨1, 0⟩, ⟨0, 1⟩, ⟨0, 0⟩, ⟨2, 0⟩]
    frames := []
    output := fun _ => List.replicate 6 Cq.zero
    frame_no := initial_frame_no
    diagonal_bias := 1 / 10
    sources := [(srcD, 0), (srcE, 0)] }

theorem Cq.sub_zero (c : Cq) : c.sub Cq.zero = c := by
  cases c; simp [Cq.sub, Cq.zero]

theorem zdotc_zero_left : ∀ (x y : List Cq), (∀ z ∈ x, z = Cq.zero) → zdotc x y = Cq.zero := by
  intro x
  induction x with
  | nil => intro y _; cases y <;> rfl
  | cons a xs ih =>
    intro y hz
    cases y with
    | nil => rfl
    | cons b ys =>
      have ha : a = Cq.zero := hz a (by simp)
      have hrest := ih ys fun z hzz => hz z (by simp [hzz])
      simp only [zdotc, hrest, ha]
      simp [Cq.conj, Cq.mul, Cq.add, Cq.zero]

theorem getD_set_self (l : List Cq) (i : Nat) (a : Cq) (h : i < l.length) :
    (l.set i a).getD i Cq.zero = a := by
  simp [List.getD, List.getElem?_set, h]

theorem getD_set_ne (l : List Cq) (i j : Nat) (a : Cq) (h : i ≠ j) :
    (l.set i a).getD j Cq.zero = l.getD j Cq.zero := by
  simp [List.getD, List.getElem?_set, h]

theorem subbandStep_length (size : Nat) (curAt : Nat → Cq) (v : List Cq) (s : Nat) :
    (subbandStep size curAt v s).length = v.length := by
  unfold subbandStep
  split <;> simp

theorem subbandFold_length (size : Nat) (curAt : Nat → Cq) :
    ∀ (L : List Nat) (v : List Cq), (L.foldl (subbandStep size curAt) v).length = v.length := by
  intro L
  induction L with
  | nil => intro v; rfl
  | cons a L ih => intro v; rw [List.foldl_cons, ih, subbandStep_length]

theorem subbandFold_getD_low (size : Nat) (curAt : Nat → Cq) :
    ∀ (k : Nat) (v : List Cq), v.length = size → 0 < size → k ≤ size / 2 + 1 →
      ∀ p, p < k →
        ((List.range k).foldl (subbandStep size curAt) v).getD p Cq.zero = curAt p := by
  intro k
  induction k with
  | zero => intro v _ _ _ p hp; omega
  | succ k ih =>
    intro v hlen hsz hk p hp
    rw [List.range_succ, List.foldl_append, List.foldl_cons, List.foldl_nil]
    have hWlen : ((List.range k).foldl (subbandStep size curAt) v).length = size := by
      rw [subbandFold_length, hlen]
    set W := (List.range k).foldl (subbandStep size curAt) v with hW
    rcases Nat.lt_succ_iff_lt_or_eq.mp hp with hlt | heq
    · -- position p was written before step k and step k does not touch it
      unfold subbandStep
      split
      · rename_i hmir
        rw [getD_set_ne _ _ _ _ (by omega), getD_set_ne _ _ _ _ (by omega)]
        exact ih v hlen hsz (by omega) p hlt
      · rw [getD_set_ne _ _ _ _ (by omega)]
        exact ih v hlen hsz (by omega) p hlt
    · -- step k writes position p = k
      subst heq
      unfold subbandStep
      split
      · rename_i hmir
        rw [getD_set_ne _ _ _ _ (by omega)]
        rw [getD_set_self _ _ _ (by omega)]
      · rw [getD_set_self _ _ _ (by omega)]

theorem subbandFold_getD_mirror (size : Nat) (curAt : Nat → Cq) :
    ∀ (k : Nat) (v : List Cq), v.length = size → k ≤ size / 2 + 1 →
      ∀ s, 0 < s → s < size / 2 → s < k →
        ((List.range k).foldl (subbandStep size curAt) v).getD (size - s) Cq.zero
          = (curAt s).conj := by
  intro k
  induction k with
  | zero => intro v _ _ s _ _ hs; omega
  | succ k ih =>
    intro v hlen hk s hs0 hs2 hsk
    rw [List.range_succ, List.foldl_append, List.foldl_cons, List.foldl_nil]
    have hWlen : ((List.range k).foldl (subbandStep size curAt) v).length = size := by
      rw [subbandFold_length, hlen]
    set W := (List.range k).foldl (subbandStep size curAt) v with hW
    rcases Nat.lt_succ_iff_lt_or_eq.mp hsk with hlt | heq
    · -- the write at step k does not touch position size - s
      unfold subbandStep
      split
      · rename_i hmir
        rw [getD_set_ne _ _ _ _ (by omega), getD_set_ne _ _ _ _ (by omega)]
        exact ih v hlen (by omega) s hs0 hs2 hlt
      · rw [getD_set_ne _ _ _ _ (by omega)]
        exact ih v hlen (by omega) s hs0 hs2 hlt
    · -- step k = s performs the mirror write
      subst heq
      unfold subbandStep
      have hmir : 0 < s ∧ s < size / 2 := ⟨hs0, hs2⟩
      rw [if_pos hmir]
      rw [getD_set_self]
      rw [List.length_set, hWlen]
      omega

theorem subbandLoop_length (size : Nat) (curAt : Nat → Cq) (v : List Cq) :
    (subbandLoop size curAt v).length = v.length :=
  subbandFold_length size curAt _ v

theorem subbandLoop_getD_low (size : Nat) (curAt : Nat → Cq) (v : List Cq)
    (hlen : v.length = size) (hsz : 0 < size) (p : Nat) (hp : p ≤ size / 2) :
    (subbandLoop size curAt v).getD p Cq.zero = curAt p :=
  subbandFold_getD_low size curAt (size / 2 + 1) v hlen hsz (le_refl _) p (by omega)

theorem subbandLoop_getD_mirror (size : Nat) (curAt : Nat → Cq) (v : List Cq)
    (hlen : v.length = size) (s : Nat) (hs0 : 0 < s) (hs2 : s < size / 2) :
    (subbandLoop size curAt v).getD (size - s) Cq.zero = (curAt s).conj :=
  subbandFold_getD_mirror size curAt (size / 2 + 1) v hlen (le_refl _) s hs0 hs2 (by omega)

theorem scNext_ok_pull {st : SCW} {q : Int} {out : List Cq} {st' : SCW}
    (h : scNext st q = .ok (out, st')) (hne : q ≠ st.frame_no) :
    st.estimated = true ∧
      ∃ blk, st.src.get? st.srcPos = some blk ∧ out = scOutput st blk ∧ st' = scAdvance st blk := by
  unfold scNext at h
  by_cases he : st.estimated = false
  · rw [if_pos he] at h; exact absurd h (by simp)
  rw [if_neg he, if_neg hne] at h
  by_cases hidx : 0 ≤ q ∧ q - 1 ≠ st.frame_no
  · rw [if_pos hidx] at h; exact absurd h (by simp)
  rw [if_neg hidx] at h
  refine ⟨by revert he; cases st.estimated <;> simp, ?_⟩
  cases hget : st.src.get? st.srcPos with
  | none => rw [hget] at h; exact absurd h (by simp)
  | some blk =>
    rw [hget] at h
    simp only [Except.ok.injEq, Prod.mk.injEq] at h
    exact ⟨blk, rfl, h.1.symm, h.2.symm⟩

theorem mcCalc_ok_inv {st : MCW} {q : Int} {outs : Nat → Frame} {st' : MCW}
    (h : mcCalcEveryChannelOutput st q = .ok (outs, st')) :
    st.estimated = true ∧
      ∃ fb srcs, pullAllAux st.sources = some (fb, srcs) ∧
        outs = mcOutputs st fb ∧ st' = mcAdvance st fb srcs := by
  unfold mcCalcEveryChannelOutput at h
  by_cases he : st.estimated = false
  · rw [if_pos he] at h; exact absurd h (by simp)
  rw [if_neg he] at h
  by_cases hidx : 0 ≤ q ∧ q - 1 ≠ st.frame_no
  · rw [if_pos hidx] at h; exact absurd h (by simp)
  rw [if_neg hidx] at h
  refine ⟨by revert he; cases st.estimated <;> simp, ?_⟩
  cases hget : pullAllAux st.sources with
  | none => rw [hget] at h; exact absurd h (by simp)
  | some p =>
    obtain ⟨fb, srcs⟩ := p
    rw [hget] at h
    simp only [Except.ok.injEq, Prod.mk.injEq] at h
    exact ⟨fb, srcs, rfl, h.1.symm, h.2.symm⟩

theorem foldl_update_fun {α : Type} (g : Nat → α → α) :
    ∀ (n : Nat) (f0 : Nat → α) (i : Nat),
      ((List.range n).foldl (fun f k => Function.update f k (g k (f k))) f0) i
        = if i < n then g i (f0 i) else f0 i := by
  intro n
  induction n with
  | zero => intro f0 i; simp
  | succ n ih =>
    intro f0 i
    rw [List.range_succ, List.foldl_append, List.foldl_cons, List.foldl_nil]
    by_cases hi : i = n
    · subst hi
      rw [Function.update_same, ih]
      simp
    · rw [Function.update_noteq hi, ih]
      rcases Nat.lt_or_ge i n with hlt | hge
      · rw [if_pos hlt, if_pos (by omega)]
      · rw [if_neg (by omega), if_neg (by omega)]

theorem mcOutputs_apply (st : MCW) (fbrace : List Frame) (ch : Nat)
    (hch : ch < st.channelsN) :
    mcOutputs st fbrace ch
      = subbandLoop st.subbandsN
          (mcCurAt st (st.frame_no + 1) (mcFramesPush st fbrace) fbrace ch)
          (st.output ch) := by
  unfold mcOutputs
  rw [foldl_update_fun
    (fun k a => subbandLoop st.subbandsN
      (mcCurAt st (st.frame_no + 1) (mcFramesPush st fbrace) fbrace k) a)]
  rw [if_pos hch]

/-- C10: for the single-channel feature in the Estimated state, a
`next(frame_no)` call whose nonnegative requested index equals the previous
call's index returns the previously computed output vector and leaves the
whole state unchanged — in particular no frame is pulled from the source,
the lag buffer is untouched and the frame counter does not advance
(dereverberation.cc:232). -/
theorem scNext_repeat_is_cached (st : SCW) (q : Int) (hq : 0 ≤ q)
    (hest : st.estimated = true) (heq : q = st.frame_no) :
    scNext st q = .ok (st.vector, st) := by
  unfold scNext
  rw [if_neg (by simp [hest]), if_pos heq]

theorem scNext_repeat_is_cached_witness :
    scNext scDemo 0 = .ok (scDemo.vector, scDemo) :=
  scNext_repeat_is_cached scDemo 0 (by decide) rfl rfl

/-- C5 (amended): a causal step before a successful estimation fails with an
initialization error for the single-channel `next`, for the multi-channel
`calc_every_channel_output`, and for a pull on the primary channel's view;
a non-primary channel view performs no estimation check of its own. -/
theorem preEstimationGuard :
    (∀ (st : SCW) (q : Int), st.estimated = false →
        scNext st q = .error .initialization)
    ∧ (∀ (st : MCW) (q : Int), st.estimated = false →
        mcCalcEveryChannelOutput st q = .error .initialization)
    ∧ (∀ (stf : MCFeat) (q : Int), stf.mc.estimated = false →
        stf.channelX = stf.primaryChannelX →
        mcFeatureNext stf q = .error .initialization) := by
  refine ⟨?_, ?_, ?_⟩
  · intro st q h
    unfold scNext
    rw [if_pos h]
  · intro st q h
    unfold mcCalcEveryChannelOutput
    rw [if_pos h]
  · intro stf q h hch
    have hcalc : mcCalcEveryChannelOutput stf.mc q = .error .initialization := by
      unfold mcCalcEveryChannelOutput
      rw [if_pos h]
    simp [mcFeatureNext, hch, hcalc, Except.map, Bind.bind, Except.bind]

theorem preEstimationGuard_witness :
    scNext scUnest 0 = .error .initialization
    ∧ mcCalcEveryChannelOutput mcUnest 0 = .error .initialization
    ∧ mcFeatureNext ⟨mcUnest, 0, 0, initial_frame_no⟩ 0 = .error .initialization :=
  ⟨preEstimationGuard.1 scUnest 0 rfl,
   preEstimationGuard.2.1 mcUnest 0 rfl,
   preEstimationGuard.2.2 ⟨mcUnest, 0, 0, initial_frame_no⟩ 0 rfl rfl⟩

/-- C5 counterexample: `mcUnest` is reachable through the public
constructor and two source registrations and has never been estimated, yet
pulling the NON-primary channel view succeeds instead of failing with an
initialization error (`MultiChannelWPEDereverberationFeature::next` only
runs the guarded joint computation on the primary channel's view,
dereverberation.cc:714-728). -/
theorem preEstimationGuard_counterexample :
    ((mcConstruct 4 2 1 2 2 1 0 (1 / 10) 16).bind fun st =>
        (mcSetInput st srcA).bind fun st => mcSetInput st srcB) = .ok mcUnest
    ∧ mcUnest.estimated = false
    ∧ mcFeatUnest.channelX ≠ mcFeatUnest.primaryChannelX
    ∧ exceptIsOk (mcFeatureNext mcFeatUnest 0) = true :=
  ⟨rfl, rfl, by decide, rfl⟩

/-- C2 (amended): with a nonnegative requested index `q`, in the Estimated
state: the multi-channel step errors with a sequencing (index) error exactly
when `q` is not the successor of the stored frame counter; the
single-channel step errors exactly when `q` is neither the successor nor a
repeat of the stored counter (a repeat returns the cached frame instead).
Since the counter starts at -1, the very first call accepts only index 0
among nonnegative indices. -/
theorem frameSequencing :
    (∀ (st : SCW) (q : Int), st.estimated = true → 0 ≤ q →
        (scNext st q = .error .index ↔ q ≠ st.frame_no ∧ q - 1 ≠ st.frame_no))
    ∧ (∀ (st : MCW) (q : Int), st.estimated = true → 0 ≤ q →
        (mcCalcEveryChannelOutput st q = .error .index ↔ q - 1 ≠ st.frame_no)) := by
  constructor
  · intro st q hest hq
    unfold scNext
    rw [if_neg (by simp [hest])]
    by_cases h0 : q = st.frame_no
    · rw [if_pos h0]
      simp [h0]
    · rw [if_neg h0]
      by_cases h1 : q - 1 ≠ st.frame_no
      · rw [if_pos ⟨hq, h1⟩]
        simp [h0, h1]
      · rw [if_neg (by tauto)]
        have hrhs : ¬(q ≠ st.frame_no ∧ q - 1 ≠ st.frame_no) := by tauto
        simp only [hrhs, iff_false]
        cases hget : st.src.get? st.srcPos <;> simp
  · intro st q hest hq
    unfold mcCalcEveryChannelOutput
    rw [if_neg (by simp [hest])]
    by_cases h1 : q - 1 ≠ st.frame_no
    · rw [if_pos ⟨hq, h1⟩]
      simp [h1]
    · rw [if_neg (by tauto)]
      have hrhs : ¬(q - 1 ≠ st.frame_no) := h1
      simp only [hrhs, iff_false]
      cases hget : pullAllAux st.sources with
      | none => simp
      | some p => simp

theorem frameSequencing_witness :
    scNext scDemo 5 = .error .index
    ∧ mcCalcEveryChannelOutput mcDemoEst 7 = .error .index :=
  ⟨(frameSequencing.1 scDemo 5 rfl (by decide)).mpr (by decide),
   (frameSequencing.2 mcDemoEst 7 rfl (by decide)).mpr (by decide)⟩

/-- C2 counterexample.  First part: `mcDemoEst` is fresh (its frame counter
still has the initial value -1, no step has occurred), yet the very first
`calc_every_channel_output(5)` fails with an index error — the first step
does NOT accept an arbitrary starting index.  Second part: `scDemo` has
delivered frame 0, and a repeated request for index 0 (which is not
`previous + 1`) succeeds via the cached-frame return instead of failing
with a sequencing error. -/
theorem frameSequencing_counterexample :
    mcDemoEst.frame_no = initial_frame_no
    ∧ mcCalcEveryChannelOutput mcDemoEst 5 = .error .index
    ∧ scDemo.frame_no = 0
    ∧ exceptIsOk (scNext scDemo 0) = true :=
  ⟨rfl, rfl, rfl, rfl⟩

/-- C3: for every frame produced by a pulling causal step (single- and
multi-channel) and every subband `s` strictly between the two bandwidth
limits with `s ≤ size/2`, the output value equals the raw value pulled from
the source — the filtering branch is never taken there, regardless of the
filter state (dereverberation.cc:262 and 488). -/
theorem passthroughMidband :
    (∀ (st : SCW) (q : Int) (out : List Cq) (st' : SCW) (blk : Frame) (s : Nat),
        scNext st q = .ok (out, st') → q ≠ st.frame_no →
        st.src.get? st.srcPos = some blk →
        st.vector.length = st.size → 0 < st.size →
        st.lower_bandWidthN < s → s < st.upper_bandWidthN → s ≤ st.size / 2 →
        out.getD s Cq.zero = blk.getD s Cq.zero)
    ∧ (∀ (st : MCW) (q : Int) (outs : Nat → Frame) (st' : MCW) (fb : List Frame)
        (srcs : List (List Frame × Nat)) (ch s : Nat),
        mcCalcEveryChannelOutput st q = .ok (outs, st') →
        pullAllAux st.sources = some (fb, srcs) →
        (st.output ch).length = st.subbandsN → 0 < st.subbandsN → ch < st.channelsN →
        st.lower_bandWidthN < s → s < st.upper_bandWidthN → s ≤ st.subbandsN / 2 →
        (outs ch).getD s Cq.zero = (fb.getD ch []).getD s Cq.zero) := by
  constructor
  · intro st q out st' blk s h hne hget hlen hsz hl hu hhalf
    obtain ⟨hest, blk', hget', hout, hst'⟩ := scNext_ok_pull h hne
    rw [hget] at hget'
    injection hget' with hb
    subst hb
    subst hout
    unfold scOutput
    rw [subbandLoop_getD_low _ _ _ hlen hsz s hhalf]
    simp only [scCurAt]
    rw [if_neg (by rintro ⟨-, hd | hd⟩ <;> omega)]
  · intro st q outs st' fb srcs ch s h hpull hlen hsz hch hl hu hhalf
    obtain ⟨hest, fb', srcs', hpull', houts, hst'⟩ := mcCalc_ok_inv h
    rw [hpull] at hpull'
    injection hpull' with hp
    injection hp with hp1 hp2
    subst hp1
    subst houts
    rw [mcOutputs_apply st fb ch hch]
    rw [subbandLoop_getD_low _ _ _ hlen hsz s hhalf]
    simp only [mcCurAt]
    rw [if_neg (by rintro ⟨-, hd | hd⟩ <;> omega)]

/-- C4: for every frame produced by a pulling causal step (single- and
multi-channel) and every `0 < s < size/2`, the output at the mirror subband
`size - s` is the complex conjugate of the (possibly filtered) output at
subband `s` (dereverberation.cc:270-271 and 495-496). -/
theorem conjugateSymmetry :
    (∀ (st : SCW) (q : Int) (out : List Cq) (st' : SCW) (blk : Frame) (s : Nat),
        scNext st q = .ok (out, st') → q ≠ st.frame_no →
        st.src.get? st.srcPos = some blk →
        st.vector.length = st.size →
        0 < s → s < st.size / 2 →
        out.getD (st.size - s) Cq.zero = (out.getD s Cq.zero).conj)
    ∧ (∀ (st : MCW) (q : Int) (outs : Nat → Frame) (st' : MCW) (fb : List Frame)
        (srcs : List (List Frame × Nat)) (ch s : Nat),
        mcCalcEveryChannelOutput st q = .ok (outs, st') →
        pullAllAux st.sources = some (fb, srcs) →
        (st.output ch).length = st.subbandsN → ch < st.channelsN →
        0 < s → s < st.subbandsN / 2 →
        (outs ch).getD (st.subbandsN - s) Cq.zero = ((outs ch).getD s Cq.zero).conj) := by
  constructor
  · intro st q out st' blk s h hne hget hlen hs0 hs2
    obtain ⟨hest, blk', hget', hout, hst'⟩ := scNext_ok_pull h hne
    rw [hget] at hget'
    injection hget' with hb
    subst hb
    subst hout
    unfold scOutput
    rw [subbandLoop_getD_mirror _ _ _ hlen s hs0 hs2]
    rw [subbandLoop_getD_low _ _ _ hlen (by omega) s (by omega)]
  · intro st q outs st' fb srcs ch s h hpull hlen hch hs0 hs2
    obtain ⟨hest, fb', srcs', hpull', houts, hst'⟩ := mcCalc_ok_inv h
    rw [hpull] at hpull'
    injection hpull' with hp
    injection hp with hp1 hp2
    subst hp1
    subst houts
    rw [mcOutputs_apply st fb ch hch]
    rw [subbandLoop_getD_mirror _ _ _ hlen s hs0 hs2]
    rw [subbandLoop_getD_low _ _ _ hlen (by omega) s (by omega)]

/-- C1 (amended): with `iterationsN = 0` the predictor vectors stay all-zero
through `estimate_filter` (they are allocated zeroed by the constructor and
`estimate_Gn_` runs no iteration), and every subsequent pulling step then
returns exactly the raw source value at every subband `s ≤ size/2`, while
each mirror subband `size - s` (for `0 < s < size/2`) receives the
conjugate of the raw value at `s` — so the full output equals the raw frame
exactly when the input frame is conjugate-symmetric.  The predictors are
also untouched by streaming, so this holds for every subsequent frame. -/
theorem zeroIterationIdentity :
    (∀ (src : List Frame) (size lowerN upperN iterationsN : Nat) (lf bw sr : ℚ) (st : SCW),
        scConstruct src size lowerN upperN iterationsN lf bw sr = .ok st →
        ∀ s, ∀ z ∈ st.gn s, z = Cq.zero)
    ∧ (∀ (cabs : Cq → ℚ) (solve : (Nat → Nat → Cq) → List Cq → List Cq)
        (st : SCW) (a b : Int), st.iterationsN = 0 →
        ((scEstimateFilter cabs solve st a b).1).gn = st.gn)
    ∧ (∀ (st : SCW) (q : Int) (out : List Cq) (st' : SCW) (blk : Frame) (s : Nat),
        scNext st q = .ok (out, st') → q ≠ st.frame_no →
        st.src.get? st.srcPos = some blk →
        st.vector.length = st.size → 0 < st.size →
        (∀ t, ∀ z ∈ st.gn t, z = Cq.zero) →
        (s ≤ st.size / 2 → out.getD s Cq.zero = blk.getD s Cq.zero)
        ∧ (0 < s → s < st.size / 2 →
            out.getD (st.size - s) Cq.zero = (blk.getD s Cq.zero).conj)
        ∧ st'.gn = st.gn) := by
  refine ⟨?_, ?_, ?_⟩
  · intro src size lowerN upperN iterationsN lf bw sr st h s z hz
    unfold scConstruct at h
    cases hbw : set_band_width size bw sr with
    | error e => rw [hbw] at h; exact absurd h (by simp [Except.map])
    | ok lbw =>
      rw [hbw] at h
      simp only [Except.map, Except.ok.injEq] at h
      subst h
      simp only [List.mem_replicate] at hz
      exact hz.2
  · intro cabs solve st a b hiter
    have hfill : (scFillBuffer st a b).iterationsN = 0 := by
      simp [scFillBuffer, hiter]
    simp only [scEstimateFilter, scEstimateGn, hfill, List.range_zero, List.foldl_nil]
    simp [scFillBuffer]
  · intro st q out st' blk s h hne hget hlen hsz hgn
    obtain ⟨hest, blk', hget', hout, hst'⟩ := scNext_ok_pull h hne
    rw [hget] at hget'
    injection hget' with hb
    subst hb
    subst hout
    have hcur : ∀ t, t ≤ st.size / 2 →
        scCurAt st (st.frame_no + 1) blk (scYnPush st blk) t = blk.getD t Cq.zero := by
      intro t _
      simp only [scCurAt]
      split
      · rw [zdotc_zero_left _ _ (hgn t), Cq.sub_zero]
      · rfl
    refine ⟨?_, ?_, ?_⟩
    · intro hhalf
      unfold scOutput
      rw [subbandLoop_getD_low _ _ _ hlen hsz s hhalf]
      exact hcur s hhalf
    · intro hs0 hs2
      unfold scOutput
      rw [subbandLoop_getD_mirror _ _ _ hlen s hs0 hs2]
      rw [hcur s (by omega)]
    · rw [hst']
      rfl

theorem passthroughMidband_witness :
    scNext scBand 1
      = .ok (scOutput scBand (srcD.getD 1 []), scAdvance scBand (srcD.getD 1 []))
    ∧ (scOutput scBand (srcD.getD 1 [])).getD 2 Cq.zero = (srcD.getD 1 []).getD 2 Cq.zero
    ∧ mcCalcEveryChannelOutput mcBand 0
      = .ok (mcOutputs mcBand [srcD.getD 0 [], srcE.getD 0 []],
             mcAdvance mcBand [srcD.getD 0 [], srcE.getD 0 []] [(srcD, 1), (srcE, 1)])
    ∧ (mcOutputs mcBand [srcD.getD 0 [], srcE.getD 0 []] 1).getD 2 Cq.zero
      = ([srcD.getD 0 [], srcE.getD 0 []].getD 1 []).getD 2 Cq.zero :=
  ⟨rfl,
   passthroughMidband.1 scBand 1 _ _ (srcD.getD 1 []) 2 rfl (by decide) (by decide)
     (by decide) (by decide) (by decide) (by decide) (by decide),
   rfl,
   passthroughMidband.2 mcBand 0 _ _ [srcD.getD 0 [], srcE.getD 0 []] [(srcD, 1), (srcE, 1)]
     1 2 rfl (by decide) (by decide) (by decide) (by decide) (by decide) (by decide) (by decide)⟩

theorem conjugateSymmetry_witness :
    (scOutput scBand (srcD.getD 1 [])).getD (scBand.size - 1) Cq.zero
      = ((scOutput scBand (srcD.getD 1 [])).getD 1 Cq.zero).conj
    ∧ (mcOutputs mcBand [srcD.getD 0 [], srcE.getD 0 []] 0).getD (mcBand.subbandsN - 1) Cq.zero
      = ((mcOutputs mcBand [srcD.getD 0 [], srcE.getD 0 []] 0).getD 1 Cq.zero).conj :=
  ⟨conjugateSymmetry.1 scBand 1 _ _ (srcD.getD 1 []) 1 rfl (by decide) (by decide)
     (by decide) (by decide) (by decide),
   conjugateSymmetry.2 mcBand 0 _ _ [srcD.getD 0 [], srcE.getD 0 []] [(srcD, 1), (srcE, 1)]
     0 1 rfl (by decide) (by decide) (by decide) (by decide) (by decide)⟩

theorem zeroIterationIdentity_witness :
    ((scEstimateFilter cabsDemo solveDemo stC1base 0 1).1).gn = stC1base.gn
    ∧ (scOutput stC1est (srcC.getD 0 [])).getD 2 Cq.zero = (srcC.getD 0 []).getD 2 Cq.zero := by
  have hgnz : ∀ t, ∀ z ∈ stC1est.gn t, z = Cq.zero := by
    intro t z hz
    have he : stC1est.gn t = List.replicate 1 Cq.zero := rfl
    rw [he] at hz
    exact List.eq_of_mem_replicate hz
  refine ⟨zeroIterationIdentity.2.1 cabsDemo solveDemo stC1base 0 1 rfl, ?_⟩
  exact (zeroIterationIdentity.2.2 stC1est 0 (scOutput stC1est (srcC.getD 0 []))
    (scAdvance stC1est (srcC.getD 0 [])) (srcC.getD 0 []) 2 rfl (by decide) (by decide)
    (by decide) (by decide) hgnz).1 (by decide)

/-- C1 counterexample: `stC1base` is the feature built by the public
constructor with `iterationsN = 0`; after `estimate_filter(0, 1)` the state
is Estimated and the predictors are still zero, yet `next(0)` does NOT
return the raw source value at every subband: the raw frame has value 5 at
subband 3, while the output carries the conjugate of subband 1
(dereverberation.cc:270-271), namely -i. -/
theorem zeroIterationIdentity_counterexample :
    scConstruct srcC 4 0 0 0 1 0 16 = .ok stC1base
    ∧ stC1est.estimated = true
    ∧ exceptIsOk (scNext stC1est 0) = true
    ∧ exceptGetD Cq.zero ((scNext stC1est 0).map fun p => p.1.getD 3 Cq.zero) = ⟨0, -1⟩
    ∧ (srcC.getD 0 []).getD 3 Cq.zero = ⟨5, 0⟩
    ∧ ((⟨0, -1⟩ : Cq) ≠ ⟨5, 0⟩) := by
  refine ⟨rfl, rfl, by decide, ?_, by decide, by decide⟩
  have hnext : scNext stC1est 0
      = .ok (scOutput stC1est (srcC.getD 0 []), scAdvance stC1est (srcC.getD 0 [])) := rfl
  rw [hnext]
  show (scOutput stC1est (srcC.getD 0 [])).getD 3 Cq.zero = ⟨0, -1⟩
  norm_num [scOutput, stC1est, scEstimateFilter, scEstimateGn, scFillBuffer, stC1base, srcC,
    subbandLoop, subbandStep, scCurAt, scYnPush, getLags, zdotc, SCW.predictionN,
    Cq.sub, Cq.mul, Cq.add, Cq.conj, Cq.zero, List.range_succ, initial_frame_no]

theorem scFillLoop_pull :
    ∀ (n frX : Nat) (startF endF : Int) (src : List Frame) (pos : Nat) (acc : List Frame),
      startF ≤ (frX : Int) → endF = (frX : Int) + n → n ≤ src.length - pos →
      pos ≤ src.length →
      scFillLoop frX startF endF src pos acc
        = (acc ++ (src.drop pos).take n, pos + n) := by
  intro n
  induction n with
  | zero =>
    intro frX startF endF src pos acc hstart hend hn hpos
    unfold scFillLoop
    rw [if_pos (by omega)]
    simp
  | succ n ih =>
    intro frX startF endF src pos acc hstart hend hn hpos
    unfold scFillLoop
    rw [if_neg (by omega), if_pos (by omega)]
    split
    · rename_i heq
      have := List.get?_eq_none.mp heq
      omega
    · rename_i blk heq
      obtain ⟨hlt, hblk⟩ := List.get?_eq_some.mp heq
      rw [ih (frX + 1) startF endF src (pos + 1) (acc ++ [blk]) (by omega) (by omega)
        (by omega) (by omega)]
      have hdrop : src.drop pos = blk :: src.drop (pos + 1) := by
        rw [List.drop_eq_get_cons hlt, hblk]
      rw [hdrop, List.take_succ_cons]
      simp
      omega

theorem scFillLoop_skip :
    ∀ (k frX : Nat) (startF endF : Int) (src : List Frame) (pos : Nat) (acc : List Frame),
      startF = (frX : Int) + k → startF ≤ endF →
      scFillLoop frX startF endF src pos acc
        = scFillLoop (frX + k) startF endF src pos acc := by
  intro k
  induction k with
  | zero => intro frX startF endF src pos acc _ _; rfl
  | succ k ih =>
    intro frX startF endF src pos acc hk hle
    conv =>
      lhs
      unfold scFillLoop
    rw [if_neg (by omega), if_neg (by omega)]
    rw [ih (frX + 1) startF endF src pos acc (by omega) hle]
    have : frX + 1 + k = frX + (k + 1) := by omega
    rw [this]

theorem scFillLoop_all :
    ∀ (fuel frX : Nat) (startF endF : Int) (src : List Frame) (pos : Nat) (acc : List Frame),
      endF < 0 → pos ≤ src.length →
      (startF.toNat - frX) + (src.length - pos) ≤ fuel →
      scFillLoop frX startF endF src pos acc = (acc ++ src.drop pos, src.length) := by
  intro fuel
  induction fuel with
  | zero =>
    intro frX startF endF src pos acc hend hpos hfuel
    unfold scFillLoop
    rw [if_neg (by omega), if_pos (by omega)]
    split
    · rename_i heq
      have hlen := List.get?_eq_none.mp heq
      rw [List.drop_eq_nil_of_le (by omega)]
      simp
      omega
    · rename_i blk heq
      obtain ⟨hlt, -⟩ := List.get?_eq_some.mp heq
      omega
  | succ fuel ih =>
    intro frX startF endF src pos acc hend hpos hfuel
    unfold scFillLoop
    rw [if_neg (by omega)]
    by_cases hstart : startF ≤ (frX : Int)
    · rw [if_pos hstart]
      split
      · rename_i heq
        have hlen := List.get?_eq_none.mp heq
        rw [List.drop_eq_nil_of_le (by omega)]
        simp
        omega
      · rename_i blk heq
        obtain ⟨hlt, hblk⟩ := List.get?_eq_some.mp heq
        rw [ih (frX + 1) startF endF src (pos + 1) (acc ++ [blk]) hend (by omega) (by omega)]
        have hdrop : src.drop pos = blk :: src.drop (pos + 1) := by
          rw [List.drop_eq_get_cons hlt, hblk]
        rw [hdrop]
        simp
    · rw [if_neg hstart]
      exact ih (frX + 1) startF endF src pos acc hend hpos (by omega)

theorem foldl_framesN_invariant (F : SCW → Nat → SCW)
    (hF : ∀ s n, (F s n).framesN = s.framesN) :
    ∀ (l : List Nat) (s : SCW), (l.foldl F s).framesN = s.framesN := by
  intro l
  induction l with
  | nil => intro s; rfl
  | cons a l ih => intro s; rw [List.foldl_cons, ih, hF]

theorem scEstimateGn_framesN (cabs : Cq → ℚ) (solve : (Nat → Nat → Cq) → List Cq → List Cq)
    (st : SCW) : (scEstimateGn cabs solve st).framesN = st.framesN := by
  unfold scEstimateGn
  apply foldl_framesN_invariant
  intro s n
  apply foldl_framesN_invariant
  intro s' m
  split <;> rfl

/-- C6 (amended): `fill_buffer_` pulls nothing during the first `startFrame`
loop iterations (it does NOT skip over the source's first `startFrame`
frames), so for `0 ≤ startFrame ≤ endFrame` on a sufficiently long source
the batch buffer receives the FIRST `endFrame - startFrame` frames from the
source's current position; with `endFrame < 0` it receives all frames to
end of stream; and `estimate_filter` returns the number of frames
buffered. -/
theorem estimateWindow :
    (∀ (st : SCW) (startF endF : Int), 0 ≤ startF → startF ≤ endF →
        (endF - startF).toNat ≤ st.src.length - st.srcPos → st.srcPos ≤ st.src.length →
        (scFillBuffer st startF endF).yn
          = st.yn ++ (st.src.drop st.srcPos).take (endF - startF).toNat)
    ∧ (∀ (cabs : Cq → ℚ) (solve : (Nat → Nat → Cq) → List Cq → List Cq)
        (st : SCW) (startF endF : Int), 0 ≤ startF → startF ≤ endF →
        (endF - startF).toNat ≤ st.src.length - st.srcPos → st.srcPos ≤ st.src.length →
        st.yn = [] →
        (scEstimateFilter cabs solve st startF endF).2 = (endF - startF).toNat)
    ∧ (∀ (st : SCW) (startF endF : Int), endF < 0 → st.srcPos ≤ st.src.length →
        (scFillBuffer st startF endF).yn = st.yn ++ st.src.drop st.srcPos) := by
  have hfill : ∀ (st : SCW) (startF endF : Int), 0 ≤ startF → startF ≤ endF →
      (endF - startF).toNat ≤ st.src.length - st.srcPos → st.srcPos ≤ st.src.length →
      scFillLoop 0 startF endF st.src st.srcPos []
        = ([] ++ (st.src.drop st.srcPos).take (endF - startF).toNat,
           st.srcPos + (endF - startF).toNat) := by
    intro st startF endF h0 hse hlen hpos
    rw [scFillLoop_skip startF.toNat 0 startF endF st.src st.srcPos [] (by omega) hse]
    exact scFillLoop_pull (endF - startF).toNat (0 + startF.toNat) startF endF st.src
      st.srcPos [] (by omega) (by omega) hlen hpos
  refine ⟨?_, ?_, ?_⟩
  · intro st startF endF h0 hse hlen hpos
    simp only [scFillBuffer]
    rw [hfill st startF endF h0 hse hlen hpos]
    simp
  · intro cabs solve st startF endF h0 hse hlen hpos hyn
    simp only [scEstimateFilter]
    rw [scEstimateGn_framesN]
    simp only [scFillBuffer]
    rw [hfill st startF endF h0 hse hlen hpos]
    simp only [hyn, List.nil_append, List.length_take, List.length_drop]
    omega
  · intro st startF endF hend hpos
    simp only [scFillBuffer]
    rw [scFillLoop_all (startF.toNat + (st.src.length - st.srcPos)) 0 startF endF st.src
      st.srcPos [] hend hpos (by omega)]
    simp

theorem estimateWindow_witness :
    (scFillBuffer stC1base 0 2).yn
      = stC1base.yn ++ (stC1base.src.drop stC1base.srcPos).take ((2 : Int) - 0).toNat
    ∧ (scEstimateFilter cabsDemo solveDemo stC1base 0 2).2 = ((2 : Int) - 0).toNat
    ∧ (scFillBuffer stC1base 0 (-1)).yn = stC1base.yn ++ stC1base.src.drop stC1base.srcPos :=
  ⟨estimateWindow.1 stC1base 0 2 (by decide) (by decide) (by decide) (by decide),
   estimateWindow.2.1 cabsDemo solveDemo stC1base 0 2 (by decide) (by decide) (by decide)
     (by decide) rfl,
   estimateWindow.2.2 stC1base 0 (-1) (by decide) (by decide)⟩

/-- C6 counterexample: on the freshly constructed feature over the
two-frame source `srcC`, `fill_buffer_(1, 2)` buffers the FIRST source
frame, not the frame with index 1: iterations with `frX < start_frame_no`
do not pull (dereverberation.cc:79), so the source is never advanced past
the skipped window. -/
theorem estimateWindow_counterexample :
    scConstruct srcC 4 0 0 0 1 0 16 = .ok stC1base
    ∧ (scFillBuffer stC1base 1 2).yn = [[⟨1, 0⟩, ⟨0, 1⟩, ⟨0, 0⟩, ⟨5, 0⟩]]
    ∧ srcC.getD 1 [] = [⟨2, 0⟩, ⟨0, 0⟩, ⟨1, 0⟩, ⟨0, 0⟩]
    ∧ ([[(⟨1, 0⟩ : Cq), ⟨0, 1⟩, ⟨0, 0⟩, ⟨5, 0⟩]]
        ≠ ([[⟨2, 0⟩, ⟨0, 0⟩, ⟨1, 0⟩, ⟨0, 0⟩]] : List Frame)) := by
  refine ⟨rfl, ?_, by decide, by decide⟩
  simp only [scFillBuffer]
  rw [scFillLoop_skip 1 0 1 2 stC1base.src stC1base.srcPos [] (by decide) (by decide)]
  rw [scFillLoop_pull 1 (0 + 1) 1 2 stC1base.src stC1base.srcPos [] (by decide) (by decide)
    (by decide) (by decide)]
  decide

theorem thetaEntry_ge (cabs : Cq → ℚ) (c : Cq) :
    subband_floor ^ 2 ≤ thetaEntry cabs c := by
  simp only [thetaEntry]
  by_cases h : cabs c < subband_floor
  · rw [if_pos h, pow_two]
  · rw [if_neg h]
    push_neg at h
    have h0 : (0 : ℚ) ≤ subband_floor := by norm_num [subband_floor]
    rw [pow_two]
    exact mul_le_mul h h h0 (le_trans h0 h)

theorem foldl_grid2_row (value : Nat → Nat → ℚ) (a0 : Nat) :
    ∀ (m : Nat) (th : Nat → Nat → ℚ),
      ((List.range m).foldl
        (fun th b0 => fun a b => if a = a0 ∧ b = b0 then value a0 b0 else th a b) th)
        = fun a b => if a = a0 ∧ b < m then value a0 b else th a b := by
  intro m
  induction m with
  | zero =>
    intro th
    funext a b
    simp
  | succ m ih =>
    intro th
    rw [List.range_succ, List.foldl_append, List.foldl_cons, List.foldl_nil, ih]
    funext a b
    beta_reduce
    by_cases h1 : a = a0 ∧ b = m
    · obtain ⟨ha, hb⟩ := h1
      subst ha
      subst hb
      simp
    · rw [if_neg h1]
      by_cases h2 : a = a0 ∧ b < m
      · rw [if_pos h2, if_pos ⟨h2.1, by omega⟩]
      · rw [if_neg h2, if_neg (by omega)]

theorem foldl_grid2 (value : Nat → Nat → ℚ) :
    ∀ (n : Nat) (m : Nat) (init : Nat → Nat → ℚ),
      ((List.range n).foldl
        (fun th a0 =>
          (List.range m).foldl
            (fun th b0 => fun a b => if a = a0 ∧ b = b0 then value a0 b0 else th a b) th)
        init)
        = fun a b => if a < n ∧ b < m then value a b else init a b := by
  intro n
  induction n with
  | zero =>
    intro m init
    funext a b
    simp
  | succ n ih =>
    intro m init
    rw [List.range_succ, List.foldl_append, List.foldl_cons, List.foldl_nil, ih,
      foldl_grid2_row]
    funext a b
    beta_reduce
    by_cases h1 : a = n ∧ b < m
    · obtain ⟨ha, hb⟩ := h1
      subst ha
      rw [if_pos ⟨rfl, hb⟩, if_pos ⟨by omega, hb⟩]
    · rw [if_neg h1]
      by_cases h2 : a < n ∧ b < m
      · rw [if_pos h2, if_pos ⟨by omega, h2.2⟩]
      · rw [if_neg h2, if_neg (by rintro ⟨ha, hb⟩; rcases Nat.lt_succ_iff_lt_or_eq.mp ha with h | h <;> tauto)]

theorem scCalcThetan_eq (cabs : Cq → ℚ) (st : SCW) :
    scCalcThetan cabs st
      = fun a b =>
          if a < st.yn.length ∧ b < st.size then thetaEntry cabs (scThetaResidual st a b)
          else st.thetan a b := by
  unfold scCalcThetan
  exact foldl_grid2 (fun a b => thetaEntry cabs (scThetaResidual st a b))
    st.yn.length st.size st.thetan

theorem foldl_grid3_row (value : Nat → Nat → Nat → ℚ) (c0 a0 : Nat) :
    ∀ (m : Nat) (th : Nat → Nat → Nat → ℚ),
      ((List.range m).foldl
        (fun th b0 => fun c a b =>
          if c = c0 ∧ a = a0 ∧ b = b0 then value c0 a0 b0 else th c a b) th)
        = fun c a b => if c = c0 ∧ a = a0 ∧ b < m then value c0 a0 b else th c a b := by
  intro m
  induction m with
  | zero =>
    intro th
    funext c a b
    simp
  | succ m ih =>
    intro th
    rw [List.range_succ, List.foldl_append, List.foldl_cons, List.foldl_nil, ih]
    funext c a b
    beta_reduce
    by_cases h1 : c = c0 ∧ a = a0 ∧ b = m
    · obtain ⟨hc, ha, hb⟩ := h1
      subst hc; subst ha; subst hb
      simp
    · rw [if_neg h1]
      by_cases h2 : c = c0 ∧ a = a0 ∧ b < m
      · rw [if_pos h2, if_pos ⟨h2.1, h2.2.1, by omega⟩]
      · rw [if_neg h2, if_neg (by rintro ⟨hc, ha, hb⟩; exact h2 ⟨hc, ha, by omega⟩)]

theorem foldl_grid3_mid (value : Nat → Nat → Nat → ℚ) (a0 : Nat) (m : Nat) :
    ∀ (cN : Nat) (th : Nat → Nat → Nat → ℚ),
      ((List.range cN).foldl
        (fun th c0 =>
          (List.range m).foldl
            (fun th b0 => fun c a b =>
              if c = c0 ∧ a = a0 ∧ b = b0 then value c0 a0 b0 else th c a b) th) th)
        = fun c a b => if c < cN ∧ a = a0 ∧ b < m then value c a0 b else th c a b := by
  intro cN
  induction cN with
  | zero =>
    intro th
    funext c a b
    simp
  | succ cN ih =>
    intro th
    rw [List.range_succ, List.foldl_append, List.foldl_cons, List.foldl_nil, ih,
      foldl_grid3_row]
    funext c a b
    beta_reduce
    by_cases h1 : c = cN ∧ a = a0 ∧ b < m
    · obtain ⟨hc, ha, hb⟩ := h1
      subst hc; subst ha
      rw [if_pos ⟨rfl, rfl, hb⟩, if_pos ⟨by omega, rfl, hb⟩]
    · rw [if_neg h1]
      by_cases h2 : c < cN ∧ a = a0 ∧ b < m
      · rw [if_pos h2, if_pos ⟨by omega, h2.2⟩]
      · rw [if_neg h2, if_neg (by
          rintro ⟨hc, ha, hb⟩
          rcases Nat.lt_succ_iff_lt_or_eq.mp hc with h | h
          · exact h2 ⟨h, ha, hb⟩
          · exact h1 ⟨h, ha, hb⟩)]

theorem foldl_grid3 (value : Nat → Nat → Nat → ℚ) (cN m : Nat) :
    ∀ (n : Nat) (init : Nat → Nat → Nat → ℚ),
      ((List.range n).foldl
        (fun th a0 =>
          (List.range cN).foldl
            (fun th c0 =>
              (List.range m).foldl
                (fun th b0 => fun c a b =>
                  if c = c0 ∧ a = a0 ∧ b = b0 then value c0 a0 b0 else th c a b) th) th)
        init)
        = fun c a b => if a < n ∧ c < cN ∧ b < m then value c a b else init c a b := by
  intro n
  induction n with
  | zero =>
    intro init
    funext c a b
    simp
  | succ n ih =>
    intro init
    rw [List.range_succ, List.foldl_append, List.foldl_cons, List.foldl_nil, ih,
      foldl_grid3_mid]
    funext c a b
    beta_reduce
    by_cases h1 : c < cN ∧ a = n ∧ b < m
    · obtain ⟨hc, ha, hb⟩ := h1
      subst ha
      rw [if_pos ⟨hc, rfl, hb⟩, if_pos ⟨by omega, hc, hb⟩]
    · rw [if_neg h1]
      by_cases h2 : a < n ∧ c < cN ∧ b < m
      · rw [if_pos h2, if_pos ⟨by omega, h2.2⟩]
      · rw [if_neg h2, if_neg (by
          rintro ⟨ha, hc, hb⟩
          rcases Nat.lt_succ_iff_lt_or_eq.mp ha with h | h
          · exact h2 ⟨h, hc, hb⟩
          · exact h1 ⟨hc, h.symm ▸ rfl, hb⟩)]

theorem mcCalcThetan_eq (cabs : Cq → ℚ) (st : MCW) :
    mcCalcThetan cabs st
      = fun c a b =>
          if a < st.frames.length ∧ c < st.channelsN ∧ b < st.subbandsN then
            thetaEntry cabs (mcThetaResidual st c a b)
          else st.thetan c a b := by
  unfold mcCalcThetan
  exact foldl_grid3 (fun c a b => thetaEntry cabs (mcThetaResidual st c a b))
    st.channelsN st.subbandsN st.frames.length st.thetan

/-- C7: after a power-estimation pass (`calc_Thetan_`, single- or
multi-channel), every visited entry of the power matrix — every buffered
frame, every subband, and (multi-channel) every channel — is at least the
squared floor constant `(1e-3)^2` (dereverberation.cc:160-166 and
636-641). -/
theorem powerFloor (cabs : Cq → ℚ) :
    (∀ (st : SCW) (sampleX s : Nat), sampleX < st.yn.length → s < st.size →
        subband_floor ^ 2 ≤ scCalcThetan cabs st sampleX s)
    ∧ (∀ (st : MCW) (ch sampleX s : Nat), ch < st.channelsN →
        sampleX < st.frames.length → s < st.subbandsN →
        subband_floor ^ 2 ≤ mcCalcThetan cabs st ch sampleX s) := by
  constructor
  · intro st sampleX s h1 h2
    rw [scCalcThetan_eq]
    beta_reduce
    rw [if_pos ⟨h1, h2⟩]
    exact thetaEntry_ge cabs _
  · intro st ch sampleX s h1 h2 h3
    rw [mcCalcThetan_eq]
    beta_reduce
    rw [if_pos ⟨h2, h1, h3⟩]
    exact thetaEntry_ge cabs _

theorem powerFloor_witness :
    subband_floor ^ 2 ≤ scCalcThetan cabsDemo scDemo 0 1
    ∧ subband_floor ^ 2
        ≤ mcCalcThetan cabsDemo
            { mcDemoEst with frames := [[srcA.getD 0 [], srcB.getD 0 []]] } 1 0 2 :=
  ⟨(powerFloor cabsDemo).1 scDemo 0 1 (by decide) (by decide),
   (powerFloor cabsDemo).2 { mcDemoEst with frames := [[srcA.getD 0 [], srcB.getD 0 []]] }
     1 0 2 (by decide) (by decide) (by decide)⟩

theorem foldl_update2_diag (g : Nat → Cq → Cq) :
    ∀ (n : Nat) (R : Nat → Nat → Cq) (i j : Nat),
      ((List.range n).foldl (fun R k => update2 R k k (g k (R k k))) R) i j
        = if i = j ∧ i < n then g i (R i i) else R i j := by
  intro n
  induction n with
  | zero =>
    intro R i j
    simp
  | succ n ih =>
    intro R i j
    rw [List.range_succ, List.foldl_append, List.foldl_cons, List.foldl_nil]
    have hW : (List.range n).foldl (fun R k => update2 R k k (g k (R k k))) R n n
        = R n n := by
      rw [ih, if_neg (by omega)]
    by_cases h1 : i = n ∧ j = n
    · obtain ⟨hi, hj⟩ := h1
      subst hi
      subst hj
      simp only [update2]
      rw [if_pos (by simp), hW, if_pos (by simp)]
    · simp only [update2]
      rw [if_neg h1, ih]
      by_cases h2 : i = j ∧ i < n
      · rw [if_pos h2, if_pos ⟨h2.1, by omega⟩]
      · rw [if_neg h2, if_neg (by rintro ⟨hij, hlt⟩; exact h2 ⟨hij, by omega⟩)]

theorem maximumDiagonal_nonneg (cabs : Cq → ℚ) (n : Nat) (R : Nat → Nat → Cq) :
    0 ≤ maximumDiagonal cabs n R := by
  unfold maximumDiagonal
  have key : ∀ (l : List Nat) (m : ℚ), 0 ≤ m →
      0 ≤ l.foldl (fun m i => let diag := cabs (R i i); if diag > m then diag else m) m := by
    intro l
    induction l with
    | nil => intro m hm; exact hm
    | cons a l ih =>
      intro m hm
      rw [List.foldl_cons]
      apply ih
      dsimp only
      split
      · rename_i hgt
        exact le_of_lt (lt_of_le_of_lt hm hgt)
      · exact hm
  exact key _ 0 le_rfl

theorem load_R_diag (cabs : Cq → ℚ) (lf : ℚ) (n : Nat) (R : Nat → Nat → Cq)
    (i : Nat) (hi : i < n) :
    load_R cabs lf n R i i
      = ⟨cabs (R i i) + maximumDiagonal cabs n R * lf, 0⟩ := by
  have h := foldl_update2_diag
    (fun _ v => (⟨cabs v + maximumDiagonal cabs n R * lf, 0⟩ : Cq)) n R i i
  rw [if_pos ⟨rfl, hi⟩] at h
  exact h

/-- C8: after the `load_R_` regularization step, the magnitude of every
diagonal entry is at least its pre-regularization magnitude: the new entry
is the real value `|R_ii| + maximumDiagonal * load_factor`, and the added
term is nonnegative because the maximum diagonal magnitude starts from 0.0
and `load_factor = 10^(loadDb/10) > 0` (dereverberation.cc:172-184 and
648-663; `load_R` is the shared embedding of both the single-channel
`load_R_` with `n = predictionN_` and the per-channel multi-channel
`load_R_` with `n = totalPredictionN_`).  The hypotheses on `cabs` hold for
the true complex modulus computed by `gsl_complex_abs`. -/
theorem diagonalLoadingMonotone (cabs : Cq → ℚ) (lf : ℚ) (n : Nat) (R : Nat → Nat → Cq)
    (hnn : ∀ z, 0 ≤ cabs z) (hreal : ∀ q : ℚ, 0 ≤ q → cabs ⟨q, 0⟩ = q) (hlf : 0 ≤ lf)
    (i : Nat) (hi : i < n) :
    cabs (R i i) ≤ cabs (load_R cabs lf n R i i) := by
  rw [load_R_diag cabs lf n R i hi]
  have hmax : 0 ≤ maximumDiagonal cabs n R * lf :=
    mul_nonneg (maximumDiagonal_nonneg cabs n R) hlf
  rw [hreal _ (add_nonneg (hnn _) hmax)]
  linarith

theorem diagonalLoadingMonotone_witness :
    cabsDemo ((fun _ _ => (⟨3, 4⟩ : Cq)) 0 0)
      ≤ cabsDemo (load_R cabsDemo (1 / 2) 2 (fun _ _ => (⟨3, 4⟩ : Cq)) 0 0) :=
  diagonalLoadingMonotone cabsDemo (1 / 2) 2 (fun _ _ => (⟨3, 4⟩ : Cq))
    (by
      intro z
      unfold cabsDemo
      split
      · exact abs_nonneg _
      · exact le_trans (abs_nonneg _) (le_max_left _ _))
    (by
      intro q hq
      simp [cabsDemo, abs_of_nonneg hq])
    (by norm_num) 0 (by norm_num)

theorem maximumDiagonal_congr (cabs : Cq → ℚ) :
    ∀ (n : Nat) (R R' : Nat → Nat → Cq), (∀ i, i < n → R i i = R' i i) →
      maximumDiagonal cabs n R = maximumDiagonal cabs n R' := by
  intro n
  induction n with
  | zero => intro R R' _; rfl
  | succ n ih =>
    intro R R' h
    unfold maximumDiagonal at *
    simp only [List.range_succ, List.foldl_append, List.foldl_cons, List.foldl_nil]
    rw [ih R R' fun i hi => h i (by omega)]
    dsimp only
    rw [h n (by omega)]

/-- C9: in the multi-channel statistics pass, channel `ch`'s matrix `R` as
handed to the regularizer is the weighted accumulation plus the fixed
`diagonal_bias_` on every diagonal entry (added inside `calc_Rr_`, before
`load_R_` runs, dereverberation.cc:576-579); consequently the
maximum-diagonal value that the proportional loading computes ranges over
the biased diagonals.  Since this holds for every state, it holds at every
iteration, active subband and channel of `estimate_Gn_`, where `load_R_`
is applied directly to `calc_Rr_`'s output. -/
theorem diagonalBiasBeforeLoading (cabs : Cq → ℚ) (st : MCW) (subbandX ch : Nat) :
    (∀ i, i < st.totalPredictionN →
        mcCalcR st subbandX ch i i
          = (mcAccumR st subbandX ch i i).addReal st.diagonal_bias)
    ∧ (∀ i j, ¬(i = j ∧ i < st.totalPredictionN) →
        mcCalcR st subbandX ch i j = mcAccumR st subbandX ch i j)
    ∧ maximumDiagonal cabs st.totalPredictionN (mcCalcR st subbandX ch)
        = maximumDiagonal cabs st.totalPredictionN
            (fun a b => (mcAccumR st subbandX ch a b).addReal st.diagonal_bias) := by
  have key := foldl_update2_diag (fun _ v => v.addReal st.diagonal_bias)
    st.totalPredictionN (mcAccumR st subbandX ch)
  refine ⟨?_, ?_, ?_⟩
  · intro i hi
    have h := key i i
    rw [if_pos ⟨rfl, hi⟩] at h
    exact h
  · intro i j hij
    have h := key i j
    rw [if_neg hij] at h
    exact h
  · apply maximumDiagonal_congr
    intro i hi
    have h := key i i
    rw [if_pos ⟨rfl, hi⟩] at h
    exact h

theorem diagonalBiasBeforeLoading_witness :
    mcCalcR mcDemoEst 0 0 0 0 = (mcAccumR mcDemoEst 0 0 0 0).addReal mcDemoEst.diagonal_bias
    ∧ maximumDiagonal cabsDemo mcDemoEst.totalPredictionN (mcCalcR mcDemoEst 0 0)
        = maximumDiagonal cabsDemo mcDemoEst.totalPredictionN
            (fun a b => (mcAccumR mcDemoEst 0 0 a b).addReal mcDemoEst.diagonal_bias) :=
  ⟨(diagonalBiasBeforeLoading cabsDemo mcDemoEst 0 0).1 0 (by decide),
   (diagonalBiasBeforeLoading cabsDemo mcDemoEst 0 0).2.2⟩
